import Mathlib

/-!
Verification of the pile_dedupe pipeline (generate_minhashes.py, dedupe.py,
working_with_duplicates.py, yield_deduped_pile.py) against its
natural-language specification.  The Python sources are shallowly embedded:
documents are lists of characters, minhash signatures are modelled by their
per-band LSH bucket keys, the pickle files of the working directory are
fields of an explicit filesystem record, and generators become
list-producing functions.  All definitions are executable, so concrete runs
can be settled by `decide`.
-/

namespace PileDedupe

/-! ## Shingler and minhash builder (generate_minhashes.py)

`slice_document`, `extract_ngrams` and `generate_minhash` are embedded over
`List Char` documents.  `nltk.word_tokenize` is modelled as whitespace word
splitting (`splitWords`); the datasketch `MinHash` over `num_perm = 10`
permutations is modelled parametrically in the per-permutation hash family
`h`: each signature entry is the minimum of `h i` over the shingle set,
starting from the hash-range maximum (the value an empty set keeps). -/

/-- `megabyte = 1024 * 1024` from generate_minhashes.py. -/
def megabyte : Nat := 1024 * 1024

/-- `slice_document`: documents longer than 1 MiB are cut into 1 MiB
chunks `document[slice_size * i : min(slice_size * i + slice_size, len)]`;
shorter documents pass through whole. -/
def sliceDocument (document : List Char) : List (List Char) :=
  if megabyte < document.length then
    (List.range ((document.length + megabyte - 1) / megabyte)).map
      (fun i => (document.drop (megabyte * i)).take megabyte)
  else [document]

/-- Helper for `splitWords`: split a character list at spaces, keeping
empty pieces (the running first word is the head of the result). -/
def splitAux : List Char → List (List Char)
  | [] => [[]]
  | c :: rest =>
    if c = ' ' then [] :: splitAux rest
    else (c :: (splitAux rest).headI) :: (splitAux rest).tail

/-- Model of `nltk.word_tokenize`: whitespace-separated word tokens
(empty pieces dropped). -/
def splitWords (d : List Char) : List (List Char) :=
  (splitAux d).filter (fun w => decide (w ≠ []))

/-- `nltk.util.ngrams`: all length-`n` windows of consecutive tokens
(none when fewer than `n` tokens). -/
def ngramsOf (n : Nat) (ts : List (List Char)) : List (List (List Char)) :=
  (List.range (ts.length + 1 - n)).map (fun i => (ts.drop i).take n)

/-- The space join of `extract_ngrams`: `' '.join(grams)`. -/
def joinSpace (g : List (List Char)) : List Char := List.intercalate [' '] g

/-- `extract_ngrams(data, num)`: tokenize `data`, form all `num`-grams and
join each with single spaces.  The tokenizer is a parameter (the source
calls `nltk.word_tokenize`). -/
def extract_ngrams (tok : List Char → List (List Char)) (data : List Char)
    (n : Nat) : List (List Char) :=
  (ngramsOf n (tok data)).map joinSpace

/-- Initial value of every datasketch `MinHash` hash slot (`_max_hash`);
an empty shingle set keeps it in every position. -/
def maxHash : Nat := 2 ^ 32 - 1

/-- MinHash signature of a shingle set: for each of the 10 permutations
`i`, the minimum of the permuted hash `h i` over the set (starting from
`maxHash`).  The permuted-hash family `h` is a parameter: datasketch draws
its coefficients from a seeded RNG and applies them to a SHA1-derived base
hash, and the signature is determined by the shingle set through `h`. -/
def minhashSig (h : Nat → List Char → Nat) (S : Finset (List Char)) : List Nat :=
  (List.range 10).map (fun i => S.fold min maxHash (h i))

/-- The `five_gram_set` of `generate_minhash`: 5-grams are extracted per
1 MiB slice and the per-slice lists are unioned into a set. -/
def fiveGramSetSliced (tok : List Char → List (List Char)) (d : List Char) :
    Finset (List Char) :=
  ((sliceDocument d).map (fun sl => extract_ngrams tok sl 5)).flatten.toFinset

/-- Reference single-pass shingle set: 5-grams of the whole (unsliced)
token stream, as a set. -/
def fiveGramSetSingle (tok : List Char → List (List Char)) (d : List Char) :
    Finset (List Char) :=
  (extract_ngrams tok d 5).toFinset

/-- `generate_minhash(document)`: slice the document, extract and union the
per-slice 5-gram lists, and build the minhash of the resulting set.  The
whole body runs under `try`: tokenization may fail, which the embedding
exposes by letting the tokenizer return `Except`; any failure makes the
function return `none` (the Python code logs and returns `None`). -/
def generate_minhash (tok : List Char → Except Unit (List (List Char)))
    (h : Nat → List Char → Nat) (document : List Char) : Option (List Nat) :=
  match (sliceDocument document).mapM
      (fun sl => (tok sl).map (fun ts => (ngramsOf 5 ts).map joinSpace)) with
  | Except.ok ls => some (minhashSig h ls.flatten.toFinset)
  | Except.error _ => none

/-- Lift a total tokenizer into the `Except`-valued interface of
`generate_minhash` (the non-failing case). -/
def tokOf (tok : List Char → List (List Char)) :
    List Char → Except Unit (List (List Char)) :=
  fun d => Except.ok (tok d)

/-! ## Dedupe engine (dedupe.py)

A `Sig` models a minhash signature by the list of its LSH band keys: two
signatures land in a common bucket exactly when some band position carries
the same key.  `lshQuery` models `MinHashLSH.query` (all keys whose stored
signature shares at least one band with the queried signature; the current
document is itself in the index during the dedupe pass, so it appears in
its own results), and `lshRemove` models `MinHashLSH.remove`. -/

abbrev Sig := List Nat

def bandCollide (s t : Sig) : Bool :=
  (s.zip t).any (fun p => decide (p.1 = p.2))

def lshQuery (index : List (Nat × Sig)) (s : Sig) : List Nat :=
  (index.filter (fun e => bandCollide e.2 s)).map Prod.fst

def lshRemove (index : List (Nat × Sig)) (k : Nat) : List (Nat × Sig) :=
  index.filter (fun e => decide (e.1 ≠ k))

/-- `save_frequency` from `dedupe.py` `main`. -/
def saveFrequency : Nat := 1000000

/-- Observable file-writing events of the dedupe pass: `save b` is a
`save_duplicate_batch` call flushing buffer `b` (the full record file and
its `smol` companion), `check` is an `ensure_disk_space` call. -/
inductive Ev where
  | save (b : List (Nat × List Nat))
  | check
deriving DecidableEq, Repr

/-- State of the dedupe loop in `dedupe.py` `main`: the LSH index, the
in-memory `duplicates` buffer, the running `duplicate_count`, and the
trace of file-writing events performed so far. -/
structure DState where
  index : List (Nat × Sig)
  batch : List (Nat × List Nat)
  count : Nat
  trace : List Ev
deriving DecidableEq, Repr

/-- One iteration of the streaming loop of `dedupe.py` `main`: query the
LSH; if any hit differs from the current offset, append `(offset, results)`
to the buffer, bump the counter and remove the current offset from the LSH
(first such hit only — the loop breaks); then, if the buffer reached
`save_frequency`, dump it and run the disk-space check. -/
def dedupeStep (st : DState) (doc : Nat × Sig) : DState :=
  let results := lshQuery st.index doc.2
  let st' :=
    if results.any (fun r => decide (r ≠ doc.1)) then
      { st with
          index := lshRemove st.index doc.1
          batch := st.batch ++ [(doc.1, results)]
          count := st.count + 1 }
    else st
  if st'.batch.length = saveFrequency then
    { st' with
        trace := st'.trace ++ [Ev.save st'.batch, Ev.check]
        batch := [] }
  else st'

/-- The dedupe pass of `dedupe.py` `main`: the LSH is first built by
inserting every `(offset, minhash)` of the stream
(`load_or_create_lsh`), then the same stream is replayed through the
loop; afterwards a nonempty remaining buffer is dumped as the final batch
(with no disk-space check). -/
def dedupeRun (input : List (Nat × Sig)) : DState :=
  let final := input.foldl dedupeStep
    { index := input, batch := [], count := 0, trace := [] }
  if final.batch.isEmpty then final
  else { final with
           trace := final.trace ++ [Ev.save final.batch]
           batch := [] }

/-- Contents of all duplicate batch files written during a run, in order:
the duplicate records the pass emitted (plus, mid-run, the still unflushed
buffer). -/
def emitted (st : DState) : List (Nat × List Nat) :=
  (st.trace.filterMap (fun e =>
    match e with
    | Ev.save b => some b
    | Ev.check => none)).flatten ++ st.batch

/-- Proof-internal view of one loop iteration: the index and the flat list
of all records emitted so far, without the batching machinery. -/
def passStep (p : List (Nat × Sig) × List (Nat × List Nat)) (doc : Nat × Sig) :
    List (Nat × Sig) × List (Nat × List Nat) :=
  let results := lshQuery p.1 doc.2
  if results.any (fun r => decide (r ≠ doc.1)) then
    (lshRemove p.1 doc.1, p.2 ++ [(doc.1, results)])
  else p

/-- A three-document corpus of pairwise near-duplicates: one band each,
all colliding (the transitive-cluster scenario of the spec). -/
def input3 : List (Nat × Sig) := [(0, [7]), (1, [7]), (2, [7])]

/-- A two-document corpus of near-duplicates (one colliding band). -/
def input2 : List (Nat × Sig) := [(0, [5]), (1, [5])]

def isSave : Ev → Bool
  | Ev.save _ => true
  | Ev.check => false

/-- The disk-space-guard claim: every batch dump is preceded by an earlier
`ensure_disk_space` call in the trace. -/
def checkPrecedesSaves (t : List Ev) : Prop :=
  ∀ i : Fin t.length, isSave (t.get i) = true →
    ∃ j : Fin t.length, j.val < i.val ∧ t.get j = Ev.check

instance (t : List Ev) : Decidable (checkPrecedesSaves t) := by
  unfold checkPrecedesSaves
  infer_instance

/-- A trace made of complete blocks: each a full-buffer dump immediately
followed by a disk-space check. -/
def fullBlocks : List Ev → Bool
  | [] => true
  | Ev.save b :: Ev.check :: rest => decide (b.length = saveFrequency) && fullBlocks rest
  | _ => false

/-- The shape the dedupe pass actually produces: complete blocks, each a
full-buffer dump immediately followed by a disk-space check, optionally
ending with one nonempty non-full final dump that no check follows. -/
def wellBatched : List Ev → Bool
  | [] => true
  | [Ev.save b] => decide (b ≠ []) && decide (b.length < saveFrequency)
  | Ev.save b :: Ev.check :: rest => decide (b.length = saveFrequency) && wellBatched rest
  | _ => false

/-- `ensure_disk_space` from dedupe.py: assert that `free / total > 0.05`
(as the exact rational comparison `total < 20 * free`); the assert raises
when it fails. -/
def ensure_disk_space (free total : Nat) : Except Unit Unit :=
  if total < 20 * free then Except.ok () else Except.error ()

/-! ## Minhash store batch commit and recovery (generate_minhashes.py)

The working directory is a record of the files the transaction touches:
`checkpoint.pkl`, `checkpoint_old.pkl`, `checkpoint_temp.pkl`, the
`.transaction_lock` sentinel and the `minhashes_<start>.pkl` batch files
(an association list keyed by start offset).  A file is either completely
written (`FData.val`, carrying the pickled payload — for checkpoints the
offset, for batch files abstracted to the batch's last offset) or
partially written (`FData.part`, a crash mid-`pickle.dump`). -/

inductive FData where
  | part
  | val (n : Nat)
deriving DecidableEq, Repr

structure FS where
  checkpoint : Option FData
  checkpointOld : Option FData
  checkpointTemp : Option FData
  lock : Bool
  minhashes : List (Nat × FData)
deriving DecidableEq, Repr

/-- Overwrite (or create) the batch file keyed `k`. -/
def setFile (files : List (Nat × FData)) (k : Nat) (v : FData) : List (Nat × FData) :=
  (k, v) :: files.filter (fun e => decide (e.1 ≠ k))

/-- The sub-steps of the `process_batch` commit transaction, in program
order.  The two direct `pickle.dump` calls are split into a begin (partial
file exists) and an end (file complete) so that crashes mid-write are
crash points too:
0 — touch `.transaction_lock`;
1/2 — `pickle.dump` of `minhashes_<start>.pkl` (direct write, no temp);
3/4 — `pickle.dump` of `checkpoint_temp.pkl`;
5 — if `checkpoint.pkl` exists, rename it to `checkpoint_old.pkl`;
6 — rename `checkpoint_temp.pkl` to `checkpoint.pkl`;
7 — remove `.transaction_lock`. -/
def txnSubstep (startOff lastOff : Nat) (i : Nat) (fs : FS) : FS :=
  match i with
  | 0 => { fs with lock := true }
  | 1 => { fs with minhashes := setFile fs.minhashes startOff FData.part }
  | 2 => { fs with minhashes := setFile fs.minhashes startOff (FData.val lastOff) }
  | 3 => { fs with checkpointTemp := some FData.part }
  | 4 => { fs with checkpointTemp := some (FData.val lastOff) }
  | 5 => if fs.checkpoint.isSome then
           { fs with checkpointOld := fs.checkpoint, checkpoint := none }
         else fs
  | 6 => { fs with checkpoint := fs.checkpointTemp, checkpointTemp := none }
  | _ => { fs with lock := false }

/-- State after the first `i` sub-steps of a batch commit (the process was
killed there when `i < 8`; `i = 8` is a completed transaction). -/
def txnUpTo (fs : FS) (startOff lastOff : Nat) : Nat → FS
  | 0 => fs
  | i + 1 => txnSubstep startOff lastOff i (txnUpTo fs startOff lastOff i)

/-- The startup recovery of `generate_minhashes.py` `main`: if the lock is
present and `checkpoint_temp.pkl` exists, restore `checkpoint_old.pkl`
over `checkpoint.pkl` (when it exists) and delete the temp file; then
remove the lock.  Only existence is consulted, never contents. -/
def recover (fs : FS) : FS :=
  if fs.lock then
    let fs2 :=
      if fs.checkpointTemp.isSome then
        let fs3 :=
          if fs.checkpointOld.isSome then
            { fs with checkpoint := fs.checkpointOld, checkpointOld := none }
          else fs
        { fs3 with checkpointTemp := none }
      else fs
    { fs2 with lock := false }
  else fs

/-- One batch attempt: run the transaction to crash point `crashAt`
(or to completion at 8), then the recovery that the next start performs. -/
def runBatch (fs : FS) (startOff lastOff : Nat) (crashAt : Nat) : FS :=
  recover (txnUpTo fs startOff lastOff crashAt)

/-- Offset stored in a checkpoint-family file (0 when absent/unreadable). -/
def cpVal : Option FData → Nat
  | some (FData.val n) => n
  | _ => 0

/-- `checkpoint_offset` on startup: `pickle.load(checkpoint) + 1` when the
file exists, 0 otherwise; `none` if the load would hit a truncated file. -/
def resumeOffset (fs : FS) : Option Nat :=
  match fs.checkpoint with
  | none => some 0
  | some (FData.val c) => some (c + 1)
  | some FData.part => none

/-- Directory states reachable between batch attempts: no lock, no temp
file, both checkpoints complete, and `checkpoint_old` (when present) an
older committed checkpoint than `checkpoint`. -/
def ValidFS (fs : FS) : Prop :=
  fs.lock = false ∧ fs.checkpointTemp = none ∧
    fs.checkpoint ≠ some FData.part ∧ fs.checkpointOld ≠ some FData.part ∧
    (fs.checkpointOld.isSome → fs.checkpoint.isSome) ∧
    cpVal fs.checkpointOld ≤ cpVal fs.checkpoint

instance (fs : FS) : Decidable (ValidFS fs) := by
  unfold ValidFS
  infer_instance

/-- The empty working directory (first run). -/
def fs0 : FS := { checkpoint := none, checkpointOld := none, checkpointTemp := none,
                  lock := false, minhashes := [] }

/-- A directory with one committed batch: checkpoint 10. -/
def fs1 : FS := { checkpoint := some (FData.val 10), checkpointOld := none,
                  checkpointTemp := none, lock := false, minhashes := [(0, FData.val 10)] }

/-- A directory with two committed batches: checkpoint 19, old 9. -/
def fs2 : FS := { checkpoint := some (FData.val 19), checkpointOld := some (FData.val 9),
                  checkpointTemp := none, lock := false,
                  minhashes := [(10, FData.val 19), (0, FData.val 9)] }

/-! ## Duplicates reader (working_with_duplicates.py)

A duplicates directory is the list of its files in directory-listing
order: `glob.glob` matches `*duplicates_*.pkl` and returns names in that
arbitrary listing order (it does not sort), then the comprehension drops
names containing `smol`. -/

structure DupFile where
  name : List Char
  content : List (Nat × List Nat)
deriving DecidableEq, Repr

def pklSuffix : List Char := ['.', 'p', 'k', 'l']

def dupMarker : List Char := ['d', 'u', 'p', 'l', 'i', 'c', 'a', 't', 'e', 's', '_']

def smolMarker : List Char := ['s', 'm', 'o', 'l']

/-- Whether a name matches the glob pattern `*duplicates_*.pkl`: it ends
in `.pkl` and contains `duplicates_` before that extension. -/
def globDupMatch (n : List Char) : Bool :=
  decide (List.IsSuffix pklSuffix n) &&
    decide (List.IsInfix dupMarker (n.take (n.length - 4)))

/-- The `"smol" not in x` test of the list comprehension. -/
def hasSmol (n : List Char) : Bool := decide (List.IsInfix smolMarker n)

/-- `yield_duplicates`: glob the duplicates pattern, drop `smol` files,
read each file in the order the listing returned it and yield its
`(offset, found_offsets)` pairs in file order. -/
def yield_duplicates (dir : List DupFile) : List (Nat × List Nat) :=
  (((dir.filter (fun f => globDupMatch f.name)).filter
      (fun f => !(hasSmol f.name))).map (fun f => f.content)).flatten

/-- Name order on duplicate files (lexicographic on the characters). -/
def nameLe (f g : DupFile) : Prop := List.Lex (· < ·) f.name g.name ∨ f.name = g.name

instance : DecidableRel nameLe := by
  unfold nameLe
  infer_instance

/-- The reader the specification describes: same enumeration, but files
opened in sorted filename order. -/
def yield_duplicates_sorted (dir : List DupFile) : List (Nat × List Nat) :=
  ((((dir.filter (fun f => globDupMatch f.name)).filter
      (fun f => !(hasSmol f.name))).insertionSort nameLe).map
    (fun f => f.content)).flatten

/-- A directory whose listing order is the reverse of filename order. -/
def dirTwo : List DupFile :=
  [{ name := ['d', 'u', 'p', 'l', 'i', 'c', 'a', 't', 'e', 's', '_', '0', '0', '0', '1',
              '.', 'p', 'k', 'l'],
     content := [(5, [1])] },
   { name := ['d', 'u', 'p', 'l', 'i', 'c', 'a', 't', 'e', 's', '_', '0', '0', '0', '0',
              '.', 'p', 'k', 'l'],
     content := [(3, [0])] }]

/-! ## Deduped corpus generator (yield_deduped_pile.py)

The loop of `yield_deduped_pile` compares `current_duplicate` — the whole
`(offset, matching_offsets)` tuple produced by `yield_duplicates`, or
`None` after the stream ends — with the integer `global_offset` using
Python `==`.  A tuple (or `None`) never equals an int, so the comparison
is constantly false; `pyEqDupOffset` is that constant. -/

def pyEqDupOffset : Option (Nat × List Nat) → Nat → Bool := fun _ _ => false

/-- The generator loop: on a match, advance the duplicates stream
(`None` after `StopIteration`) and skip the document; otherwise yield the
`(offset, document)` pair. -/
def yddLoop {α : Type} : Option (Nat × List Nat) → List (Nat × List Nat) →
    List (Nat × α) → List (Nat × α)
  | _, _, [] => []
  | cur, rest, (o, d) :: pile =>
    if pyEqDupOffset cur o then
      match rest with
      | r :: rs => yddLoop (some r) rs pile
      | [] => yddLoop none [] pile
    else (o, d) :: yddLoop cur rest pile

/-- `yield_deduped_pile`: prime `current_duplicate` with the first
duplicate record (the unguarded `next(duplicates)` raises `StopIteration`
on an empty store, hence `none`), then run the loop over the corpus. -/
def yield_deduped_pile {α : Type} (pile : List (Nat × α))
    (dups : List (Nat × List Nat)) : Option (List (Nat × α)) :=
  match dups with
  | [] => none
  | d :: rest => some (yddLoop (some d) rest pile)

/-! ## Concrete inputs for the shingler claims -/

/-- Tail of the oversized document: nine single-letter words, each
preceded by a space. -/
def tail18 : List Char :=
  [' ', 'b', ' ', 'c', ' ', 'd', ' ', 'e', ' ', 'f', ' ', 'g', ' ', 'h', ' ', 'i', ' ', 'j']

def padLen : Nat := megabyte - 16

/-- A single huge first word filling the first slice up to 16 characters
before the 1 MiB boundary. -/
def bigA : List Char := List.replicate padLen 'a'

/-- A document of `megabyte + 2` characters: the 1 MiB boundary falls
between the words `i` and `j`, so the 5-gram `f g h i j` spans it. -/
def bigDoc : List Char := bigA ++ tail18

/-- The boundary-spanning 5-gram of `bigDoc`. -/
def target : List Char := ['f', ' ', 'g', ' ', 'h', ' ', 'i', ' ', 'j']

/-- A member of the permuted-hash family separating shingle sets that
disagree on `target`. -/
def hTarget : Nat → List Char → Nat := fun _ g => if g = target then 0 else 1

/-- A tokenizer that fails (raises) exactly on the one-character document
`x` and otherwise tokenizes by whitespace. -/
def tokFail : List Char → Except Unit (List (List Char)) :=
  fun d => if d = ['x'] then Except.error () else Except.ok (splitWords d)

/-! ## Lemmas about the dedupe engine -/

lemma dedupeStep_spec (st : DState) (d : Nat × Sig) :
    (dedupeStep st d).index = (passStep (st.index, emitted st) d).1 ∧
    emitted (dedupeStep st d) = (passStep (st.index, emitted st) d).2 := by
  unfold dedupeStep passStep
  by_cases h : (lshQuery st.index d.2).any (fun r => decide (r ≠ d.1))
  · simp only [h, if_true]
    by_cases h2 : st.batch.length + 1 = saveFrequency
    · simp [h2, emitted, List.filterMap_append]
    · simp [h2, emitted, List.filterMap_append]
  · simp only [h, if_false]
    by_cases h2 : st.batch.length = saveFrequency
    · simp [h2, emitted, List.filterMap_append]
    · simp [h2, emitted]

lemma foldl_dedupe_spec (docs : List (Nat × Sig)) :
    ∀ st : DState,
      (docs.foldl dedupeStep st).index = (docs.foldl passStep (st.index, emitted st)).1 ∧
      emitted (docs.foldl dedupeStep st) = (docs.foldl passStep (st.index, emitted st)).2 := by
  induction docs with
  | nil => intro st; exact ⟨rfl, rfl⟩
  | cons d tl ih =>
    intro st
    have h := dedupeStep_spec st d
    simp only [List.foldl_cons]
    have h2 := ih (dedupeStep st d)
    rw [h2.1, h2.2, h.1, h.2]
    constructor <;> rfl

lemma emitted_dedupeRun (input : List (Nat × Sig)) :
    emitted (dedupeRun input) = (input.foldl passStep (input, [])).2 := by
  have h : emitted (input.foldl dedupeStep
        { index := input, batch := [], count := 0, trace := [] }) =
      (input.foldl passStep (input, [])).2 :=
    (foldl_dedupe_spec input _).2
  unfold dedupeRun
  by_cases hb : (input.foldl dedupeStep
      { index := input, batch := [], count := 0, trace := [] }).batch.isEmpty
  · simpa [hb] using h
  · rw [← h]
    simp [hb, emitted, List.filterMap_append]

lemma mem_lshQuery {idx : List (Nat × Sig)} {s : Sig} {m : Nat} :
    m ∈ lshQuery idx s ↔ ∃ sm, (m, sm) ∈ idx ∧ bandCollide sm s = true := by
  simp only [lshQuery, List.mem_map, List.mem_filter]
  constructor
  · rintro ⟨⟨a, b⟩, ⟨hmem, hcol⟩, rfl⟩
    exact ⟨b, hmem, hcol⟩
  · rintro ⟨sm, hmem, hcol⟩
    exact ⟨(m, sm), ⟨hmem, hcol⟩, rfl⟩

lemma bandCollide_self {s : Sig} (h : s ≠ []) : bandCollide s s = true := by
  cases s with
  | nil => exact absurd rfl h
  | cons a t => simp [bandCollide]

lemma pairwise_fst_inj {l : List (Nat × Sig)}
    (h : l.Pairwise (fun a b => a.1 < b.1)) :
    ∀ x ∈ l, ∀ y ∈ l, x.1 = y.1 → x = y := by
  induction l with
  | nil => intro x hx; exact absurd hx (List.not_mem_nil x)
  | cons a t ih =>
    intro x hx y hy hxy
    rcases List.pairwise_cons.mp h with ⟨ha, ht⟩
    rcases List.mem_cons.mp hx with rfl | hx'
    · rcases List.mem_cons.mp hy with rfl | hy'
      · rfl
      · exact absurd hxy (Nat.ne_of_lt (ha y hy'))
    · rcases List.mem_cons.mp hy with rfl | hy'
      · exact absurd hxy.symm (Nat.ne_of_lt (ha x hx'))
      · exact ih ht x hx' y hy' hxy

lemma passStep_pos {idx : List (Nat × Sig)} {recs : List (Nat × List Nat)} {d : Nat × Sig}
    (h : ((lshQuery idx d.2).any (fun r => decide (r ≠ d.1))) = true) :
    passStep (idx, recs) d = (lshRemove idx d.1, recs ++ [(d.1, lshQuery idx d.2)]) := by
  simp only [passStep]
  rw [if_pos h]

lemma passStep_neg {idx : List (Nat × Sig)} {recs : List (Nat × List Nat)} {d : Nat × Sig}
    (h : ¬ ((lshQuery idx d.2).any (fun r => decide (r ≠ d.1))) = true) :
    passStep (idx, recs) d = (idx, recs) := by
  simp only [passStep]
  rw [if_neg h]

lemma pass_recs_shape (docs : List (Nat × Sig)) :
    ∀ idx recs, ∃ S, (docs.foldl passStep (idx, recs)).2 = recs ++ S ∧
      List.Sublist (S.map Prod.fst) (docs.map Prod.fst) := by
  induction docs with
  | nil => intro idx recs; exact ⟨[], by simp, by simp⟩
  | cons d tl ih =>
    intro idx recs
    simp only [List.foldl_cons]
    by_cases h : (lshQuery idx d.2).any (fun r => decide (r ≠ d.1))
    · rw [passStep_pos h]
      obtain ⟨S, hS, hsub⟩ := ih (lshRemove idx d.1) (recs ++ [(d.1, lshQuery idx d.2)])
      refine ⟨(d.1, lshQuery idx d.2) :: S, ?_, ?_⟩
      · rw [hS]; simp
      · simpa using List.Sublist.cons₂ d.1 hsub
    · rw [passStep_neg h]
      obtain ⟨S, hS, hsub⟩ := ih idx recs
      exact ⟨S, hS, hsub.trans (List.sublist_cons_self _ _)⟩

lemma pass_emits (docs : List (Nat × Sig)) :
    ∀ idx recs,
      docs.Pairwise (fun a b => a.1 < b.1) →
      (∀ e, e ∈ docs → e ∈ idx) →
      ∀ c sc m sm, (c, sc) ∈ docs → (m, sm) ∈ docs → c < m →
        bandCollide sm sc = true →
        c ∈ ((docs.foldl passStep (idx, recs)).2).map Prod.fst := by
  induction docs with
  | nil =>
    intro idx recs _ _ c sc m sm hc
    exact absurd hc (List.not_mem_nil _)
  | cons d tl ih =>
    obtain ⟨o, s⟩ := d
    intro idx recs hsort hidx c sc m sm hc hm hlt hcol
    rcases List.pairwise_cons.mp hsort with ⟨hd, htl⟩
    simp only [List.foldl_cons]
    rcases List.mem_cons.mp hc with hceq | hctl
    · -- the current document is c; its collider m is still in the index
      obtain ⟨hc1, hc2⟩ := Prod.mk.injEq .. ▸ hceq
      have hmtl : (m, sm) ∈ tl := by
        rcases List.mem_cons.mp hm with hmeq | hmtl
        · have : m = o := congrArg Prod.fst hmeq
          omega
        · exact hmtl
      have hmq : m ∈ lshQuery idx s := by
        refine mem_lshQuery.mpr ⟨sm, hidx _ hm, ?_⟩
        rw [← hc2]; exact hcol
      have hfired : ((lshQuery idx s).any (fun r => decide (r ≠ o))) = true := by
        refine List.any_eq_true.mpr ⟨m, hmq, ?_⟩
        simp only [decide_eq_true_eq]
        omega
      rw [passStep_pos hfired]
      obtain ⟨S, hS, -⟩ :=
        pass_recs_shape tl (lshRemove idx o) (recs ++ [(o, lshQuery idx s)])
      rw [hS, hc1]
      simp
    · have hoc : o < c := hd (c, sc) hctl
      have hmtl : (m, sm) ∈ tl := by
        rcases List.mem_cons.mp hm with hmeq | hmtl
        · have : m = o := congrArg Prod.fst hmeq
          omega
        · exact hmtl
      by_cases hf : ((lshQuery idx s).any (fun r => decide (r ≠ o))) = true
      · rw [passStep_pos hf]
        refine ih _ _ htl ?_ c sc m sm hctl hmtl hlt hcol
        intro e he
        refine List.mem_filter.mpr ⟨hidx e (List.mem_cons_of_mem _ he), ?_⟩
        have := hd e he
        simp only [decide_eq_true_eq]
        omega
      · rw [passStep_neg hf]
        exact ih _ _ htl (fun e he => hidx e (List.mem_cons_of_mem _ he))
          c sc m sm hctl hmtl hlt hcol

lemma pass_good (docs : List (Nat × Sig)) :
    ∀ idx recs,
      (∀ e, e ∈ docs → e ∈ idx) →
      (∀ e, e ∈ idx → e.1 ∉ recs.map Prod.fst) →
      (∀ e, e ∈ docs → e.2 ≠ []) →
      (docs.map Prod.fst).Nodup →
      (∀ r, r ∈ recs → r.1 ∈ r.2 ∧ ∃ m ∈ r.2, m ≠ r.1) →
      recs.Pairwise (fun r r' => r.1 ∉ r'.2) →
      (∀ r, r ∈ (docs.foldl passStep (idx, recs)).2 →
          r.1 ∈ r.2 ∧ ∃ m ∈ r.2, m ≠ r.1) ∧
        ((docs.foldl passStep (idx, recs)).2).Pairwise (fun r r' => r.1 ∉ r'.2) := by
  induction docs with
  | nil =>
    intro idx recs _ _ _ _ hrecs hpw
    exact ⟨hrecs, hpw⟩
  | cons d tl ih =>
    obtain ⟨o, s⟩ := d
    intro idx recs hidx hchar hsig hnodup hrecs hpw
    simp only [List.foldl_cons]
    have hnd : o ∉ tl.map Prod.fst ∧ (tl.map Prod.fst).Nodup := by
      rw [List.map_cons] at hnodup
      exact List.nodup_cons.mp hnodup
    by_cases hf : ((lshQuery idx s).any (fun r => decide (r ≠ o))) = true
    · rw [passStep_pos hf]
      have hoin : o ∈ lshQuery idx s := by
        refine mem_lshQuery.mpr ⟨s, hidx _ (List.mem_cons_self _ _), ?_⟩
        exact bandCollide_self (hsig _ (List.mem_cons_self _ _))
      have hnew : (o, lshQuery idx s).1 ∈ (o, lshQuery idx s).2 ∧
          ∃ m ∈ (o, lshQuery idx s).2, m ≠ (o, lshQuery idx s).1 := by
        refine ⟨hoin, ?_⟩
        obtain ⟨m, hm, hmne⟩ := List.any_eq_true.mp hf
        exact ⟨m, hm, by simpa using hmne⟩
      refine ih _ _ ?_ ?_ (fun e he => hsig e (List.mem_cons_of_mem _ he)) hnd.2 ?_ ?_
      · intro e he
        refine List.mem_filter.mpr ⟨hidx e (List.mem_cons_of_mem _ he), ?_⟩
        simp only [decide_eq_true_eq]
        intro heq
        exact hnd.1 (heq ▸ List.mem_map_of_mem Prod.fst he)
      · intro e he
        have hin := List.mem_filter.mp he
        have h1 := hchar e hin.1
        simp only [List.map_append, List.mem_append] at h1 ⊢
        push_neg
        refine ⟨fun hmem => h1 hmem, ?_⟩
        simp only [List.map_cons, List.map_nil, List.mem_singleton]
        have := hin.2
        simp only [decide_eq_true_eq] at this
        exact this
      · intro r hr
        rcases List.mem_append.mp hr with hr | hr
        · exact hrecs r hr
        · rw [List.mem_singleton.mp hr]
          exact hnew
      · rw [List.pairwise_append]
        refine ⟨hpw, List.pairwise_singleton _ _, ?_⟩
        intro a ha b hb
        rw [List.mem_singleton.mp hb]
        intro hmem
        obtain ⟨sa, hain, -⟩ := mem_lshQuery.mp hmem
        have hamem : a.1 ∈ recs.map Prod.fst := List.mem_map_of_mem Prod.fst ha
        exact hchar _ hain hamem
    · rw [passStep_neg hf]
      exact ih _ _ (fun e he => hidx e (List.mem_cons_of_mem _ he)) hchar
        (fun e he => hsig e (List.mem_cons_of_mem _ he)) hnd.2 hrecs hpw

lemma pass_no_max (M : Nat) (sM : Sig) (full : List (Nat × Sig))
    (hsort : full.Pairwise (fun a b => a.1 < b.1))
    (hM : (M, sM) ∈ full)
    (hcol : ∀ o s, (o, s) ∈ full → bandCollide s sM = true →
        o = M ∨ (o < M ∧ bandCollide sM s = true)) :
    ∀ docs pre idx recs,
      full = pre ++ docs →
      (∀ e, e ∈ docs → e ∈ idx) →
      (∀ e, e ∈ idx → e ∈ full) →
      (∀ o' s', (o', s') ∈ idx → bandCollide s' sM = true →
          o' = M ∨ o' ∈ docs.map Prod.fst) →
      M ∉ recs.map Prod.fst →
      M ∉ ((docs.foldl passStep (idx, recs)).2).map Prod.fst := by
  intro docs
  induction docs with
  | nil =>
    intro pre idx recs _ _ _ _ hrecs
    exact hrecs
  | cons d tl ih =>
    obtain ⟨o, s⟩ := d
    intro pre idx recs hfull hidx hsub hinv hrecs
    have hsort' := hfull ▸ hsort
    rcases List.pairwise_append.mp hsort' with ⟨-, hrest, hcross⟩
    rcases List.pairwise_cons.mp hrest with ⟨hd, htl⟩
    have hmemo : (o, s) ∈ full := by
      rw [hfull]
      exact List.mem_append_right _ (List.mem_cons_self _ _)
    simp only [List.foldl_cons]
    by_cases ho : o = M
    · -- the max itself is processed: nothing left in the index collides
      have hsM : s = sM := by
        have := pairwise_fst_inj hsort (o, s) hmemo (M, sM) hM (by simpa using ho)
        exact congrArg Prod.snd this
      have hnf : ¬ ((lshQuery idx s).any (fun r => decide (r ≠ o))) = true := by
        intro hany
        obtain ⟨r, hr, hrne⟩ := List.any_eq_true.mp hany
        simp only [decide_eq_true_eq] at hrne
        obtain ⟨sr, hrin, hrcol⟩ := mem_lshQuery.mp hr
        rw [hsM] at hrcol
        have h1 := hinv r sr hrin hrcol
        have h2 := hcol r sr (hsub _ hrin) hrcol
        rcases h1 with h1 | h1
        · exact hrne (h1.trans ho.symm)
        · rcases (by simpa using h1 : r = o ∨ ∃ x, (r, x) ∈ tl) with h1' | ⟨x, hx⟩
          · exact hrne h1'
          · have hor : o < r := hd (r, x) hx
            rcases h2 with h2 | h2
            · omega
            · have := h2.1
              omega
      rw [passStep_neg hnf]
      refine ih (pre ++ [(o, s)]) idx recs ?_ ?_ hsub ?_ hrecs
      · rw [hfull, List.append_assoc]
        rfl
      · intro e he
        exact hidx e (List.mem_cons_of_mem _ he)
      · intro o' s' hin hc
        rcases hinv o' s' hin hc with h | h
        · exact Or.inl h
        · rcases (by simpa using h : o' = o ∨ ∃ x, (o', x) ∈ tl) with h' | ⟨x, hx⟩
          · exact Or.inl (h'.trans ho)
          · exact Or.inr (List.mem_map.mpr ⟨(o', x), hx, rfl⟩)
    · by_cases hf : ((lshQuery idx s).any (fun r => decide (r ≠ o))) = true
      · rw [passStep_pos hf]
        refine ih (pre ++ [(o, s)]) _ _ ?_ ?_ ?_ ?_ ?_
        · rw [hfull, List.append_assoc]
          rfl
        · intro e he
          refine List.mem_filter.mpr ⟨hidx e (List.mem_cons_of_mem _ he), ?_⟩
          have := hd e he
          simp only [decide_eq_true_eq]
          omega
        · intro e he
          exact hsub e (List.mem_filter.mp he).1
        · intro o' s' hin hc
          have hmf := List.mem_filter.mp hin
          have hne : o' ≠ o := by simpa using hmf.2
          rcases hinv o' s' hmf.1 hc with h | h
          · exact Or.inl h
          · rcases (by simpa using h : o' = o ∨ ∃ x, (o', x) ∈ tl) with h' | ⟨x, hx⟩
            · exact absurd h' hne
            · exact Or.inr (List.mem_map.mpr ⟨(o', x), hx, rfl⟩)
        · simp only [List.map_append, List.mem_append]
          push_neg
          refine ⟨hrecs, ?_⟩
          simp only [List.map_cons, List.map_nil, List.mem_singleton]
          exact fun hMo => ho hMo.symm
      · rw [passStep_neg hf]
        refine ih (pre ++ [(o, s)]) idx recs ?_ ?_ hsub ?_ hrecs
        · rw [hfull, List.append_assoc]
          rfl
        · intro e he
          exact hidx e (List.mem_cons_of_mem _ he)
        · intro o' s' hin hc
          rcases hinv o' s' hin hc with h | h
          · exact Or.inl h
          · rcases (by simpa using h : o' = o ∨ ∃ x, (o', x) ∈ tl) with h' | ⟨x, hx⟩
            · -- an earlier cluster member survived in the index: impossible,
              -- its later collider M would have fired its removal
              exfalso
              subst h'
              have hs' : s' = s := by
                have := pairwise_fst_inj hsort (o', s') (hsub _ hin) (o', s) hmemo rfl
                exact congrArg Prod.snd this
              rw [hs'] at hc
              rcases hcol o' s hmemo hc with h2 | h2
              · exact ho h2
              · obtain ⟨hlt, hback⟩ := h2
                have hMtl : (M, sM) ∈ tl := by
                  have hMfull := hM
                  rw [hfull] at hMfull
                  rcases List.mem_append.mp hMfull with hMpre | hMrest
                  · have := hcross _ hMpre (o', s) (List.mem_cons_self _ _)
                    omega
                  · rcases List.mem_cons.mp hMrest with hMeq | hMtl
                    · have : M = o' := congrArg Prod.fst hMeq
                      omega
                    · exact hMtl
                have hMq : M ∈ lshQuery idx s :=
                  mem_lshQuery.mpr ⟨sM, hidx _ (List.mem_cons_of_mem _ hMtl), hback⟩
                exact hf (List.any_eq_true.mpr ⟨M, hMq, by
                  simp only [decide_eq_true_eq]
                  omega⟩)
            · exact Or.inr (List.mem_map.mpr ⟨(o', x), hx, rfl⟩)

lemma fullBlocks_append (t u : List Ev) (h : fullBlocks t = true) :
    fullBlocks (t ++ u) = fullBlocks u := by
  induction t using fullBlocks.induct with
  | case1 => simp
  | case2 b rest ih =>
    simp only [fullBlocks, Bool.and_eq_true] at h
    simp only [List.cons_append, fullBlocks, h.1, decide_True, Bool.true_and]
    exact ih h.2
  | case3 t h1 h2 =>
    rw [show fullBlocks t = false by
      cases t with
      | nil => exact absurd rfl h1
      | cons e rest =>
        cases e with
        | save b =>
          cases rest with
          | nil => rfl
          | cons e2 rest2 =>
            cases e2 with
            | save b2 => rfl
            | check => exact absurd rfl (h2 b rest2)
        | check => rfl] at h
    exact absurd h (by simp)

lemma wellBatched_of_fullBlocks (t : List Ev) (h : fullBlocks t = true) :
    wellBatched t = true := by
  induction t using fullBlocks.induct with
  | case1 => rfl
  | case2 b rest ih =>
    simp only [fullBlocks, Bool.and_eq_true] at h
    simp only [wellBatched, h.1, decide_True, Bool.true_and]
    exact ih h.2
  | case3 t h1 h2 =>
    exfalso
    cases t with
    | nil => exact h1 rfl
    | cons e rest =>
      cases e with
      | save b =>
        cases rest with
        | nil => simp [fullBlocks] at h
        | cons e2 rest2 =>
          cases e2 with
          | save b2 => simp [fullBlocks] at h
          | check => exact h2 b rest2 rfl
      | check => simp [fullBlocks] at h

lemma wellBatched_append_final (t : List Ev) (b : List (Nat × List Nat))
    (h : fullBlocks t = true) (hne : b ≠ []) (hlt : b.length < saveFrequency) :
    wellBatched (t ++ [Ev.save b]) = true := by
  induction t using fullBlocks.induct with
  | case1 =>
    simp only [List.nil_append, wellBatched]
    simp [hne, hlt]
  | case2 b2 rest ih =>
    simp only [fullBlocks, Bool.and_eq_true] at h
    simp only [List.cons_append, wellBatched, h.1, decide_True, Bool.true_and]
    exact ih h.2
  | case3 t h1 h2 =>
    exfalso
    cases t with
    | nil => exact h1 rfl
    | cons e rest =>
      cases e with
      | save b2 =>
        cases rest with
        | nil => simp [fullBlocks] at h
        | cons e2 rest2 =>
          cases e2 with
          | save b3 => simp [fullBlocks] at h
          | check => exact h2 b2 rest2 rfl
      | check => simp [fullBlocks] at h

lemma dedupeStep_inv (st : DState) (d : Nat × Sig)
    (h1 : fullBlocks st.trace = true) (h2 : st.batch.length < saveFrequency) :
    fullBlocks (dedupeStep st d).trace = true ∧
      (dedupeStep st d).batch.length < saveFrequency := by
  unfold dedupeStep
  simp only []
  by_cases hf : ((lshQuery st.index d.2).any (fun r => decide (r ≠ d.1))) = true
  · rw [if_pos hf]
    by_cases hl : (st.batch ++ [(d.1, lshQuery st.index d.2)]).length = saveFrequency
    · rw [if_pos hl]
      refine ⟨?_, by simp [saveFrequency]⟩
      rw [fullBlocks_append _ _ h1]
      simp [fullBlocks, hl]
    · rw [if_neg hl]
      refine ⟨h1, ?_⟩
      show (st.batch ++ [(d.1, lshQuery st.index d.2)]).length < saveFrequency
      have hlen : (st.batch ++ [(d.1, lshQuery st.index d.2)]).length
          = st.batch.length + 1 := by simp
      omega
  · rw [if_neg hf]
    have hne : ¬ st.batch.length = saveFrequency := by omega
    rw [if_neg hne]
    exact ⟨h1, h2⟩

lemma foldl_dedupe_inv (docs : List (Nat × Sig)) :
    ∀ st : DState, fullBlocks st.trace = true → st.batch.length < saveFrequency →
      fullBlocks (docs.foldl dedupeStep st).trace = true ∧
        (docs.foldl dedupeStep st).batch.length < saveFrequency := by
  induction docs with
  | nil => intro st h1 h2; exact ⟨h1, h2⟩
  | cons d tl ih =>
    intro st h1 h2
    have h := dedupeStep_inv st d h1 h2
    exact ih _ h.1 h.2

lemma splitAux_ne_nil (l : List Char) : splitAux l ≠ [] := by
  cases l with
  | nil => simp [splitAux]
  | cons c rest =>
    simp only [splitAux]
    split <;> simp

lemma headI_cons_tail {α : Type} [Inhabited α] (l : List α) (h : l ≠ []) :
    l.headI :: l.tail = l := by
  cases l with
  | nil => exact absurd rfl h
  | cons a t => rfl

lemma splitAux_replicate (n : Nat) (l : List Char) :
    splitAux (List.replicate n 'a' ++ l) =
      (List.replicate n 'a' ++ (splitAux l).headI) :: (splitAux l).tail := by
  induction n with
  | zero =>
    simp only [List.replicate_zero, List.nil_append]
    exact (headI_cons_tail _ (splitAux_ne_nil l)).symm
  | succ n ih =>
    rw [List.replicate_succ, List.cons_append]
    simp only [splitAux]
    rw [if_neg (by decide), ih]
    simp


lemma bigA_length : bigA.length = padLen := by
  simp [bigA]

lemma tail18_length : tail18.length = 18 := rfl

lemma bigDoc_length : bigDoc.length = megabyte + 2 := by
  rw [bigDoc, List.length_append, bigA_length, tail18_length]
  simp only [padLen, megabyte]

lemma slices_bigDoc :
    sliceDocument bigDoc = [bigA ++ List.take 16 tail18, List.drop 16 tail18] := by
  have hnum : (bigDoc.length + megabyte - 1) / megabyte = 2 := by
    rw [bigDoc_length]
    simp only [megabyte]
  have hpos : megabyte < bigDoc.length := by
    rw [bigDoc_length]
    omega
  have e0 : (bigDoc.drop (megabyte * 0)).take megabyte = bigA ++ List.take 16 tail18 := by
    rw [Nat.mul_zero, List.drop_zero]
    simp only [bigDoc, bigA]
    rw [List.take_append_eq_append_take, List.length_replicate, List.take_replicate]
    have hmin : min megabyte padLen = padLen := by
      simp only [padLen, megabyte]
      omega
    have hsub : megabyte - padLen = 16 := by
      simp only [padLen, megabyte]
    rw [hmin, hsub]
  have e1 : (bigDoc.drop (megabyte * 1)).take megabyte = List.drop 16 tail18 := by
    rw [Nat.mul_one]
    simp only [bigDoc, bigA]
    rw [List.drop_append_eq_append_drop, List.length_replicate, List.drop_replicate]
    have hz : padLen - megabyte = 0 := by
      simp only [padLen, megabyte]
    have hsub : megabyte - padLen = 16 := by
      simp only [padLen, megabyte]
    rw [hz, hsub, List.replicate_zero, List.nil_append]
    refine List.take_of_length_le ?_
    rw [List.length_drop, tail18_length]
    simp only [megabyte]
    omega
  unfold sliceDocument
  rw [if_pos hpos, hnum]
  rw [show List.range 2 = [0, 1] from rfl]
  simp only [List.map_cons, List.map_nil]
  rw [e0, e1]


lemma take16 : List.take 16 tail18 =
    [' ', 'b', ' ', 'c', ' ', 'd', ' ', 'e', ' ', 'f', ' ', 'g', ' ', 'h', ' ', 'i'] := rfl

lemma drop16 : List.drop 16 tail18 = [' ', 'j'] := rfl

lemma splitAux16 :
    splitAux [' ', 'b', ' ', 'c', ' ', 'd', ' ', 'e', ' ', 'f', ' ', 'g', ' ', 'h', ' ', 'i'] =
      [[], ['b'], ['c'], ['d'], ['e'], ['f'], ['g'], ['h'], ['i']] := by decide

lemma splitAux18 :
    splitAux tail18 =
      [[], ['b'], ['c'], ['d'], ['e'], ['f'], ['g'], ['h'], ['i'], ['j']] := by decide

lemma bigA_ne_nil : bigA ≠ [] := by
  intro h
  have := congrArg List.length h
  rw [bigA_length] at this
  simp only [padLen, megabyte, List.length_nil] at this
  omega

lemma splitWords_slice0 :
    splitWords (bigA ++ List.take 16 tail18) =
      bigA :: [['b'], ['c'], ['d'], ['e'], ['f'], ['g'], ['h'], ['i']] := by
  rw [take16]
  unfold splitWords
  simp only [bigA]
  rw [splitAux_replicate, splitAux16]
  simp only [List.headI, List.tail_cons, List.append_nil]
  rw [List.filter_cons]
  rw [decide_eq_true (show List.replicate padLen 'a' ≠ [] from by
    simpa [bigA] using bigA_ne_nil)]
  rfl

lemma splitWords_slice1 : splitWords (List.drop 16 tail18) = [['j']] := by
  rw [drop16]
  decide

lemma splitWords_bigDoc :
    splitWords bigDoc =
      bigA :: [['b'], ['c'], ['d'], ['e'], ['f'], ['g'], ['h'], ['i'], ['j']] := by
  unfold bigDoc splitWords
  simp only [bigA]
  rw [splitAux_replicate, splitAux18]
  simp only [List.headI, List.tail_cons, List.append_nil]
  rw [List.filter_cons]
  rw [decide_eq_true (show List.replicate padLen 'a' ≠ [] from by
    simpa [bigA] using bigA_ne_nil)]
  rfl

lemma extract_slice0 :
    extract_ngrams splitWords (bigA ++ List.take 16 tail18) 5 =
      [bigA ++ [' ', 'b', ' ', 'c', ' ', 'd', ' ', 'e'],
       ['b', ' ', 'c', ' ', 'd', ' ', 'e', ' ', 'f'],
       ['c', ' ', 'd', ' ', 'e', ' ', 'f', ' ', 'g'],
       ['d', ' ', 'e', ' ', 'f', ' ', 'g', ' ', 'h'],
       ['e', ' ', 'f', ' ', 'g', ' ', 'h', ' ', 'i']] := by
  unfold extract_ngrams
  rw [splitWords_slice0]
  rfl

lemma extract_slice1 : extract_ngrams splitWords (List.drop 16 tail18) 5 = [] := by
  unfold extract_ngrams
  rw [splitWords_slice1]
  rfl

lemma extract_big :
    extract_ngrams splitWords bigDoc 5 =
      [bigA ++ [' ', 'b', ' ', 'c', ' ', 'd', ' ', 'e'],
       ['b', ' ', 'c', ' ', 'd', ' ', 'e', ' ', 'f'],
       ['c', ' ', 'd', ' ', 'e', ' ', 'f', ' ', 'g'],
       ['d', ' ', 'e', ' ', 'f', ' ', 'g', ' ', 'h'],
       ['e', ' ', 'f', ' ', 'g', ' ', 'h', ' ', 'i'],
       ['f', ' ', 'g', ' ', 'h', ' ', 'i', ' ', 'j']] := by
  unfold extract_ngrams
  rw [splitWords_bigDoc]
  rfl

lemma target_mem_single : target ∈ fiveGramSetSingle splitWords bigDoc := by
  unfold fiveGramSetSingle
  rw [extract_big]
  simp [target]

lemma target_ne_bigGram : target ≠ bigA ++ [' ', 'b', ' ', 'c', ' ', 'd', ' ', 'e'] := by
  intro h
  have := congrArg List.length h
  rw [List.length_append, bigA_length] at this
  simp only [target, padLen, megabyte, List.length_cons, List.length_nil] at this
  omega

lemma target_not_mem_sliced : target ∉ fiveGramSetSliced splitWords bigDoc := by
  unfold fiveGramSetSliced
  rw [slices_bigDoc]
  simp only [List.map_cons, List.map_nil]
  rw [extract_slice0, extract_slice1]
  intro hmem
  rw [List.mem_toFinset] at hmem
  simp only [List.flatten, List.append_nil, List.mem_cons, List.mem_singleton,
    List.not_mem_nil] at hmem
  rcases hmem with h | h | h | h | h | h
  · exact target_ne_bigGram h
  all_goals simp [target] at h

lemma sliced_single_sets_ne :
    fiveGramSetSliced splitWords bigDoc ≠ fiveGramSetSingle splitWords bigDoc :=
  fun h => target_not_mem_sliced (h ▸ target_mem_single)

lemma fold_single_eq_zero :
    (fiveGramSetSingle splitWords bigDoc).fold min maxHash (hTarget 0) = 0 := by
  refine Nat.le_zero.mp ?_
  refine (Finset.fold_min_le ..).mpr (Or.inr ⟨target, target_mem_single, ?_⟩)
  simp [hTarget]

lemma fold_sliced_pos :
    1 ≤ (fiveGramSetSliced splitWords bigDoc).fold min maxHash (hTarget 0) := by
  refine (Finset.le_fold_min ..).mpr ⟨by simp [maxHash], ?_⟩
  intro c hc
  have hne : c ≠ target := fun h => target_not_mem_sliced (h ▸ hc)
  simp [hTarget, hne]

lemma sliced_single_sigs_ne :
    minhashSig hTarget (fiveGramSetSliced splitWords bigDoc) ≠
      minhashSig hTarget (fiveGramSetSingle splitWords bigDoc) := by
  intro heq
  unfold minhashSig at heq
  have h0 := List.map_eq_map_iff.mp heq 0 (by simp)
  rw [fold_single_eq_zero] at h0
  have := fold_sliced_pos
  omega

lemma mapM_error {α β : Type} (f : α → Except Unit β) (l : List α)
    (hx : ∃ x ∈ l, f x = Except.error ()) :
    l.mapM f = Except.error () := by
  induction l with
  | nil => simp at hx
  | cons a t ih =>
    rw [List.mapM_cons]
    rcases hx with ⟨x, hx, hfx⟩
    rcases List.mem_cons.mp hx with rfl | hxt
    · rw [hfx]
      rfl
    · cases hfa : f a with
      | error e =>
        cases e
        rfl
      | ok b =>
        rw [ih ⟨x, hxt, hfx⟩]
        rfl

lemma yddLoop_id {α : Type} (pile : List (Nat × α)) :
    ∀ cur rest, yddLoop cur rest pile = pile := by
  induction pile with
  | nil => intro cur rest; rfl
  | cons p t ih =>
    intro cur rest
    obtain ⟨o, d⟩ := p
    simp only [yddLoop, pyEqDupOffset, if_false, Bool.false_eq_true]
    rw [ih]

/-! ## Claim theorems -/

/-- C1, counterexample.  In the corpus `input3` the three documents are a
mutually near-duplicate cluster (every pair collides in a band), yet the
dedupe pass emits a duplicate record for the FIRST offset 0 — which the
claim says is never emitted — and emits none for the last offset 2.  (All
signatures are pre-inserted into the LSH, and the loop fires on any hit
different from the current offset, not on a smaller one.) -/
theorem C1_counterexample :
    (∀ e ∈ input3, ∀ e' ∈ input3, e.1 ≠ e'.1 → bandCollide e.2 e'.2 = true) ∧
      0 ∈ (emitted (dedupeRun input3)).map Prod.fst ∧
      ((emitted (dedupeRun input3)).map Prod.fst).count 2 = 0 := by
  refine ⟨by decide, by decide, by decide⟩

/-- C1, amended.  For a corpus streamed in strictly increasing offset
order containing a cluster `C` of pairwise band-colliding documents with
maximal member `(M, sM)`: every cluster member other than the LAST is
emitted exactly once, and the last is never emitted provided nothing
outside the cluster collides with its signature. -/
theorem C1_theorem (input C : List (Nat × Sig)) (M : Nat) (sM : Sig)
    (hsort : input.Pairwise (fun a b => a.1 < b.1))
    (hC : ∀ e ∈ C, e ∈ input)
    (hMC : (M, sM) ∈ C)
    (hmax : ∀ e ∈ C, e.1 ≤ M)
    (hpair : ∀ e ∈ C, ∀ e' ∈ C, e.1 ≠ e'.1 → bandCollide e.2 e'.2 = true) :
    (∀ e ∈ C, e.1 ≠ M →
        ((emitted (dedupeRun input)).map Prod.fst).count e.1 = 1) ∧
      ((∀ e ∈ input, bandCollide e.2 sM = true → e ∈ C ∨ e.1 = M) →
        M ∉ (emitted (dedupeRun input)).map Prod.fst) := by
  have hnodup : (input.map Prod.fst).Nodup := by
    refine List.Pairwise.imp ?_ (List.pairwise_map.mpr hsort)
    intro a b h
    omega
  constructor
  · rintro ⟨c, sc⟩ heC hne
    have hlt : c < M := by
      have := hmax _ heC
      simp only at this hne
      omega
    have hmem : c ∈ (emitted (dedupeRun input)).map Prod.fst := by
      rw [emitted_dedupeRun]
      exact pass_emits input input [] hsort (fun e he => he) c sc M sM
        (hC _ heC) (hC _ hMC) hlt
        (hpair _ hMC _ heC (by simp only; omega))
    have hnd2 : ((emitted (dedupeRun input)).map Prod.fst).Nodup := by
      rw [emitted_dedupeRun]
      obtain ⟨S, hS, hsub⟩ := pass_recs_shape input input []
      rw [hS, List.nil_append]
      exact hnodup.sublist hsub
    exact List.count_eq_one_of_mem hnd2 hmem
  · intro houtside
    rw [emitted_dedupeRun]
    refine pass_no_max M sM input hsort (hC _ hMC) ?_ input [] input []
      rfl (fun e he => he) (fun e he => he) ?_ (by simp)
    · rintro o s hmem hcol
      rcases houtside (o, s) hmem hcol with hin | heq
      · by_cases hoM : o = M
        · exact Or.inl hoM
        · refine Or.inr ⟨?_, ?_⟩
          · have := hmax _ hin
            simp only at this
            omega
          · exact hpair _ hMC _ hin (by simp only; omega)
      · exact Or.inl heq
    · intro o' s' hin _
      exact Or.inr (List.mem_map.mpr ⟨(o', s'), hin, rfl⟩)

/-- C1, witness: the amended theorem applied to the concrete cluster
corpus `input3` with maximum 2. -/
theorem C1_witness :
    input3.Pairwise (fun a b => a.1 < b.1) ∧
      ((emitted (dedupeRun input3)).map Prod.fst).count 0 = 1 ∧
      2 ∉ (emitted (dedupeRun input3)).map Prod.fst := by
  refine ⟨by decide, ?_, ?_⟩
  · exact (C1_theorem input3 input3 2 [7] (by decide) (fun e he => he)
      (by decide) (by decide) (by decide)).1 (0, [7]) (by decide) (by decide)
  · exact (C1_theorem input3 input3 2 [7] (by decide) (fun e he => he)
      (by decide) (by decide) (by decide)).2 (by decide)

/-- C2, counterexample.  On `input3` the pass emits the record
`(1, [1, 2])`: its match set contains no offset smaller than 1, so
`min(M) < o` fails (the set holds the document itself and a LATER
cluster member), and the record was emitted although no hit had a smaller
offset. -/
theorem C2_counterexample :
    (1, [1, 2]) ∈ emitted (dedupeRun input3) ∧ ∀ m ∈ [1, 2], ¬ m < 1 := by
  refine ⟨by decide, by decide⟩

/-- C2, amended.  For a corpus streamed in strictly increasing offset
order with nonempty signatures: every emitted record `(o, M)` contains
`o` itself plus at least one other offset (that is what triggered it), and
an emitted offset never appears in the match set of any later record (it
was removed from the index first). -/
theorem C2_theorem (input : List (Nat × Sig))
    (hsort : input.Pairwise (fun a b => a.1 < b.1))
    (hsig : ∀ e ∈ input, e.2 ≠ []) :
    (∀ r ∈ emitted (dedupeRun input), r.1 ∈ r.2 ∧ ∃ m ∈ r.2, m ≠ r.1) ∧
      (emitted (dedupeRun input)).Pairwise (fun r r' => r.1 ∉ r'.2) := by
  have hnodup : (input.map Prod.fst).Nodup := by
    refine List.Pairwise.imp ?_ (List.pairwise_map.mpr hsort)
    intro a b h
    omega
  rw [emitted_dedupeRun]
  refine pass_good input input [] (fun e he => he) (fun e _ => by simp)
    (fun e he => hsig e he) hnodup (fun r hr => absurd hr (List.not_mem_nil _)) ?_
  exact List.Pairwise.nil

/-- C2, witness: the amended theorem applied to the concrete corpus
`input3`. -/
theorem C2_witness :
    (∀ e ∈ input3, e.2 ≠ []) ∧
      ((∀ r ∈ emitted (dedupeRun input3), r.1 ∈ r.2 ∧ ∃ m ∈ r.2, m ≠ r.1) ∧
        (emitted (dedupeRun input3)).Pairwise (fun r r' => r.1 ∉ r'.2)) :=
  ⟨by decide, C2_theorem input3 (by decide) (by decide)⟩

/-- C3, counterexample.  Killing the generator between the
`checkpoint_temp → checkpoint` rename and the lock removal (sub-step
count 7) leaves the NEW batch checkpoint 20 after recovery, strictly above
the pre-batch checkpoint 10 — the recovered checkpoint is not "at most the
checkpoint durable before the interrupted batch". -/
theorem C3_counterexample :
    (runBatch fs1 11 20 7).checkpoint = some (FData.val 20) ∧
      cpVal fs1.checkpoint = 10 ∧
      ¬ cpVal ((runBatch fs1 11 20 7).checkpoint) ≤ cpVal fs1.checkpoint := by
  refine ⟨by decide, by decide, by decide⟩

/-- C3, amended.  From any valid directory state, a kill at any of the
sub-step counts 0–8 of the commit transaction followed by startup recovery
yields a clean state (no lock, no temp file) whose checkpoint is the
pre-batch checkpoint, the previous `checkpoint_old`, or — only when the
crash came at or after the commit rename — the interrupted batch's own
checkpoint; before the commit rename (count ≤ 6) it is at most the
pre-batch checkpoint, and processing always resumes from checkpoint + 1
(offset 0 when no checkpoint exists). -/
theorem C3_theorem (fs : FS) (s l i : Nat) (hval : ValidFS fs) (hi : i ≤ 8) :
    (runBatch fs s l i).lock = false ∧
      (runBatch fs s l i).checkpointTemp = none ∧
      ((runBatch fs s l i).checkpoint = fs.checkpoint ∨
        (runBatch fs s l i).checkpoint = fs.checkpointOld ∨
        (runBatch fs s l i).checkpoint = some (FData.val l)) ∧
      (i ≤ 6 → cpVal ((runBatch fs s l i).checkpoint) ≤ cpVal fs.checkpoint) ∧
      (((runBatch fs s l i).checkpoint = none ∧
          resumeOffset (runBatch fs s l i) = some 0) ∨
        (∃ c, (runBatch fs s l i).checkpoint = some (FData.val c) ∧
          resumeOffset (runBatch fs s l i) = some (c + 1))) := by
  obtain ⟨cp, old, tmp, lk, mh⟩ := fs
  obtain ⟨f1, f2, f3, f4, f5, f6⟩ := hval
  simp only [] at f1 f2 f3 f4 f5 f6
  subst f1
  subst f2
  rcases cp with _ | cpd
  · rcases old with _ | od
    · interval_cases i <;>
        simp_all [runBatch, txnUpTo, txnSubstep, recover, cpVal, resumeOffset]
    · simp_all
  · rcases cpd with _ | b
    · simp_all
    · rcases old with _ | od
      · interval_cases i <;>
          simp_all [runBatch, txnUpTo, txnSubstep, recover, cpVal, resumeOffset]
      · rcases od with _ | a
        · simp_all
        · interval_cases i <;>
            simp_all [runBatch, txnUpTo, txnSubstep, recover, cpVal, resumeOffset]

/-- C3, witness: the amended theorem at the concrete one-batch directory
`fs1`, crashing after the temp checkpoint is written (count 5). -/
theorem C3_witness :
    ValidFS fs1 ∧ (5 : Nat) ≤ 8 ∧
      ((runBatch fs1 11 20 5).lock = false ∧
        (runBatch fs1 11 20 5).checkpointTemp = none ∧
        ((runBatch fs1 11 20 5).checkpoint = fs1.checkpoint ∨
          (runBatch fs1 11 20 5).checkpoint = fs1.checkpointOld ∨
          (runBatch fs1 11 20 5).checkpoint = some (FData.val 20)) ∧
        ((5 : Nat) ≤ 6 → cpVal ((runBatch fs1 11 20 5).checkpoint) ≤ cpVal fs1.checkpoint) ∧
        (((runBatch fs1 11 20 5).checkpoint = none ∧
            resumeOffset (runBatch fs1 11 20 5) = some 0) ∨
          (∃ c, (runBatch fs1 11 20 5).checkpoint = some (FData.val c) ∧
            resumeOffset (runBatch fs1 11 20 5) = some (c + 1)))) :=
  ⟨by decide, by decide, C3_theorem fs1 11 20 5 (by decide) (by decide)⟩

/-- C4, counterexample.  Commit checkpoint 9, commit checkpoint 19
(`checkpoint_old` now 9), then crash the third batch just after its temp
checkpoint is written: recovery restores `checkpoint_old` over the intact
checkpoint, and the checkpoint file drops from 19 back to 9. -/
theorem C4_counterexample :
    cpVal ((runBatch (runBatch fs0 0 9 8) 10 19 8).checkpoint) = 19 ∧
      cpVal ((runBatch (runBatch (runBatch fs0 0 9 8) 10 19 8) 20 29 5).checkpoint) = 9 ∧
      (9 : Nat) < 19 := by
  refine ⟨by decide, by decide, by decide⟩

/-- C4, amended.  The checkpoint can move backward across a crash and
recovery, but never below `checkpoint_old` — the value committed before
the most recent batch; and every batch attempt keeps the directory state
valid, so the bound holds along any sequence of commits, crashes and
recoveries. -/
theorem C4_theorem (fs : FS) (s l i : Nat) (hval : ValidFS fs)
    (hl : cpVal fs.checkpoint ≤ l) (hi : i ≤ 8) :
    cpVal fs.checkpointOld ≤ cpVal ((runBatch fs s l i).checkpoint) ∧
      ValidFS (runBatch fs s l i) := by
  obtain ⟨cp, old, tmp, lk, mh⟩ := fs
  obtain ⟨f1, f2, f3, f4, f5, f6⟩ := hval
  simp only [] at f1 f2 f3 f4 f5 f6 hl
  subst f1
  subst f2
  rcases cp with _ | cpd
  · rcases old with _ | od
    · interval_cases i <;>
        simp_all [runBatch, txnUpTo, txnSubstep, recover, cpVal, resumeOffset, ValidFS]
    · simp_all
  · rcases cpd with _ | b
    · simp_all
    · rcases old with _ | od
      · interval_cases i <;>
          simp_all [runBatch, txnUpTo, txnSubstep, recover, cpVal, resumeOffset, ValidFS]
      · rcases od with _ | a
        · simp_all
        · interval_cases i <;>
            simp_all [runBatch, txnUpTo, txnSubstep, recover, cpVal, resumeOffset, ValidFS] <;>
            omega

/-- C4, witness: the amended theorem at the concrete two-batch directory
`fs2` with a crash after the temp checkpoint of the third batch. -/
theorem C4_witness :
    ValidFS fs2 ∧ cpVal fs2.checkpoint ≤ 29 ∧ (5 : Nat) ≤ 8 ∧
      (cpVal fs2.checkpointOld ≤ cpVal ((runBatch fs2 20 29 5).checkpoint) ∧
        ValidFS (runBatch fs2 20 29 5)) :=
  ⟨by decide, by decide, by decide, C4_theorem fs2 20 29 5 (by decide) (by decide) (by decide)⟩

/-- C5, counterexample.  The minhash batch file is written with a direct
`pickle.dump` under its final name: killing the generator mid-write
(sub-step count 2) leaves a partially written `minhashes_0.pkl` under the
final name, so not every durable artifact is written temp-then-rename. -/
theorem C5_counterexample :
    (txnUpTo fs0 0 9 2).minhashes = [(0, FData.part)] ∧
      ¬ (∀ e ∈ (txnUpTo fs0 0 9 2).minhashes, e.2 ≠ FData.part) := by
  refine ⟨by decide, by decide⟩

/-- C5, amended.  Only the checkpoint is protected by the temp-then-rename
discipline: at every crash point of the transaction, before and after
recovery, the file under the final name `checkpoint.pkl` is never
partially written, and recovery leaves no temp file behind.  (The minhash
batch files — and likewise the LSH dump of dedupe.py — are plain direct
writes, as the counterexample shows.) -/
theorem C5_theorem (fs : FS) (s l i : Nat) (hval : ValidFS fs) (hi : i ≤ 8) :
    (txnUpTo fs s l i).checkpoint ≠ some FData.part ∧
      (runBatch fs s l i).checkpoint ≠ some FData.part ∧
      (runBatch fs s l i).checkpointTemp = none := by
  obtain ⟨cp, old, tmp, lk, mh⟩ := fs
  obtain ⟨f1, f2, f3, f4, f5, f6⟩ := hval
  simp only [] at f1 f2 f3 f4 f5 f6
  subst f1
  subst f2
  rcases cp with _ | cpd
  · rcases old with _ | od
    · interval_cases i <;>
        simp_all [runBatch, txnUpTo, txnSubstep, recover, cpVal, resumeOffset]
    · simp_all
  · rcases cpd with _ | b
    · simp_all
    · rcases old with _ | od
      · interval_cases i <;>
          simp_all [runBatch, txnUpTo, txnSubstep, recover, cpVal, resumeOffset]
      · rcases od with _ | a
        · simp_all
        · interval_cases i <;>
            simp_all [runBatch, txnUpTo, txnSubstep, recover, cpVal, resumeOffset]

/-- C5, witness: the amended theorem at the concrete directory `fs1` with
a crash mid-way through writing the temp checkpoint (count 4). -/
theorem C5_witness :
    ValidFS fs1 ∧ (4 : Nat) ≤ 8 ∧
      ((txnUpTo fs1 11 20 4).checkpoint ≠ some FData.part ∧
        (runBatch fs1 11 20 4).checkpoint ≠ some FData.part ∧
        (runBatch fs1 11 20 4).checkpointTemp = none) :=
  ⟨by decide, by decide, C5_theorem fs1 11 20 4 (by decide) (by decide)⟩

/-- C6, counterexample.  A tokenization failure makes `generate_minhash`
return the `None` sentinel, which is NOT the signature an empty document
yields: the empty document produces a real minhash (every slot still at
the hash-range maximum), so the failure sentinel and the empty-document
signature differ. -/
theorem C6_counterexample :
    generate_minhash tokFail hTarget ['x'] = none ∧
      generate_minhash (tokOf splitWords) hTarget [] = some (List.replicate 10 maxHash) ∧
      generate_minhash tokFail hTarget ['x'] ≠ generate_minhash (tokOf splitWords) hTarget [] := by
  refine ⟨by decide, by decide, by decide⟩

/-- C6, amended.  If tokenization fails on any slice of a document,
`generate_minhash` catches the exception and returns the `None` sentinel
(it does not propagate, so the minhash worker itself returns normally);
the empty document instead yields a genuine signature, `minhashSig h ∅`,
distinct from the sentinel. -/
theorem C6_theorem (tok : List Char → Except Unit (List (List Char)))
    (h : Nat → List Char → Nat) (document : List Char)
    (hfail : ∃ sl ∈ sliceDocument document, tok sl = Except.error ()) :
    generate_minhash tok h document = none ∧
      ∀ h2 : Nat → List Char → Nat,
        generate_minhash (tokOf splitWords) h2 [] = some (minhashSig h2 ∅) := by
  constructor
  · unfold generate_minhash
    rw [mapM_error _ _ (by
      rcases hfail with ⟨sl, hsl, hfsl⟩
      exact ⟨sl, hsl, by rw [hfsl]; rfl⟩)]
  · intro h2
    rfl

/-- C6, witness: the amended theorem applied to the tokenizer that fails
exactly on the one-character document `x`. -/
theorem C6_witness :
    (∃ sl ∈ sliceDocument ['x'], tokFail sl = Except.error ()) ∧
      (generate_minhash tokFail hTarget ['x'] = none ∧
        ∀ h2 : Nat → List Char → Nat,
          generate_minhash (tokOf splitWords) h2 [] = some (minhashSig h2 ∅)) :=
  ⟨⟨['x'], by decide, rfl⟩, C6_theorem tokFail hTarget ['x'] ⟨['x'], by decide, rfl⟩⟩

/-- C7, counterexample.  On the two-document corpus `input2` the single
duplicate is flushed as the final partial batch, and the run performs no
`ensure_disk_space` call at all — in particular none before the batch is
written, contradicting the claim for the final partial batch. -/
theorem C7_counterexample :
    (dedupeRun input2).trace = [Ev.save [(0, [0, 1])]] ∧
      ¬ checkPrecedesSaves ((dedupeRun input2).trace) := by
  refine ⟨by decide, by decide⟩

/-- C7, amended.  Every run's file-writing trace consists of complete
blocks — a dump of exactly `save_frequency` records immediately FOLLOWED
by a disk-space check — optionally ending with a single nonempty, non-full
final dump after which no check runs: the check runs after each full batch
write, never before one, and the final partial batch is written without
any check. -/
theorem C7_theorem (input : List (Nat × Sig)) :
    wellBatched ((dedupeRun input).trace) = true := by
  unfold dedupeRun
  simp only []
  have h := foldl_dedupe_inv input
    { index := input, batch := [], count := 0, trace := [] } rfl (by simp [saveFrequency])
  by_cases hb : (input.foldl dedupeStep
      { index := input, batch := [], count := 0, trace := [] }).batch.isEmpty
  · rw [if_pos hb]
    exact wellBatched_of_fullBlocks _ h.1
  · rw [if_neg hb]
    exact wellBatched_append_final _ _ h.1 (by simpa [List.isEmpty_iff] using hb) h.2

/-- C8, counterexample.  The document `bigDoc` — a huge first word padding
the first 1 MiB slice, then nine short words with the slice boundary
between `i` and `j` — is longer than 1 MiB, its sliced shingle set is not
the single-pass shingle set (the boundary-spanning 5-gram `f g h i j` is
lost), and the minhash signatures differ under the permuted-hash family
member `hTarget`. -/
theorem C8_counterexample :
    megabyte < bigDoc.length ∧
      fiveGramSetSliced splitWords bigDoc ≠ fiveGramSetSingle splitWords bigDoc ∧
      minhashSig hTarget (fiveGramSetSliced splitWords bigDoc) ≠
        minhashSig hTarget (fiveGramSetSingle splitWords bigDoc) := by
  refine ⟨?_, sliced_single_sets_ne, sliced_single_sigs_ne⟩
  rw [bigDoc_length]
  omega

/-- C8, amended.  For every document of at most 1 MiB — the unsliced code
path — the sliced shingle set and therefore the signature coincide with
the single-pass ones, for every tokenizer and every hash family; for
longer documents they can differ, because 5-grams spanning a 1 MiB slice
boundary are dropped. -/
theorem C8_theorem (tok : List Char → List (List Char)) (h : Nat → List Char → Nat)
    (d : List Char) (hlen : d.length ≤ megabyte) :
    fiveGramSetSliced tok d = fiveGramSetSingle tok d ∧
      minhashSig h (fiveGramSetSliced tok d) = minhashSig h (fiveGramSetSingle tok d) := by
  have hs : sliceDocument d = [d] := by
    unfold sliceDocument
    rw [if_neg (by omega)]
  have h1 : fiveGramSetSliced tok d = fiveGramSetSingle tok d := by
    unfold fiveGramSetSliced fiveGramSetSingle
    rw [hs]
    simp
  exact ⟨h1, by rw [h1]⟩

/-- C8, witness: the amended theorem at the six-word document
`a b c d e f`. -/
theorem C8_witness :
    (['a', ' ', 'b', ' ', 'c', ' ', 'd', ' ', 'e', ' ', 'f'].length ≤ megabyte) ∧
      (fiveGramSetSliced splitWords ['a', ' ', 'b', ' ', 'c', ' ', 'd', ' ', 'e', ' ', 'f'] =
          fiveGramSetSingle splitWords ['a', ' ', 'b', ' ', 'c', ' ', 'd', ' ', 'e', ' ', 'f'] ∧
        minhashSig hTarget
            (fiveGramSetSliced splitWords ['a', ' ', 'b', ' ', 'c', ' ', 'd', ' ', 'e', ' ', 'f']) =
          minhashSig hTarget
            (fiveGramSetSingle splitWords ['a', ' ', 'b', ' ', 'c', ' ', 'd', ' ', 'e', ' ', 'f'])) :=
  ⟨by decide, C8_theorem splitWords hTarget
    ['a', ' ', 'b', ' ', 'c', ' ', 'd', ' ', 'e', ' ', 'f'] (by decide)⟩

/-- C9, counterexample.  On a directory whose listing order reverses
filename order, `yield_duplicates` yields the records in listing order —
`glob.glob` does not sort — which differs from the filename-order
enumeration the claim describes. -/
theorem C9_counterexample :
    yield_duplicates dirTwo = [(5, [1]), (3, [0])] ∧
      yield_duplicates_sorted dirTwo = [(3, [0]), (5, [1])] ∧
      yield_duplicates dirTwo ≠ yield_duplicates_sorted dirTwo := by
  refine ⟨by decide, by decide, by decide⟩

/-- C9, amended.  The reader enumerates exactly the files matching the
duplicates pattern and not containing `smol`, opens them in the order the
directory listing returns them (not sorted), and yields the
`(offset, matching_offsets)` pairs of each file in order: its output is
the concatenation of the contents of exactly those files, and a record is
yielded precisely when some matching non-smol file of the directory
contains it. -/
theorem C9_theorem (dir : List DupFile) :
    yield_duplicates dir =
      ((dir.filter (fun f => globDupMatch f.name && !(hasSmol f.name))).map
        (fun f => f.content)).flatten ∧
    ∀ r, r ∈ yield_duplicates dir ↔
      ∃ f ∈ dir, globDupMatch f.name = true ∧ hasSmol f.name = false ∧
        r ∈ f.content := by
  constructor
  · rw [yield_duplicates, List.filter_filter]
    simp only [Bool.and_comm]
  · intro r
    unfold yield_duplicates
    simp only [List.mem_flatten, List.mem_map, List.mem_filter]
    constructor
    · rintro ⟨c, ⟨f, ⟨⟨hfd, hg⟩, hs⟩, rfl⟩, hr⟩
      exact ⟨f, hfd, hg, by simpa using hs, hr⟩
    · rintro ⟨f, hfd, hg, hs, hr⟩
      exact ⟨f.content, ⟨f, ⟨⟨hfd, hg⟩, by simpa using hs⟩, rfl⟩, hr⟩

/-- C10.  Whenever the duplicates store holds at least one record, the
generator loop yields every `(offset, document)` pair of the corpus: the
guard compares the whole `(offset, matching_offsets)` tuple (or `None`)
against the integer offset, which in Python is always false, so no
document is ever filtered out. -/
theorem C10_theorem {α : Type} (pile : List (Nat × α)) (dups : List (Nat × List Nat))
    (h : dups ≠ []) : yield_deduped_pile pile dups = some pile := by
  cases dups with
  | nil => exact absurd rfl h
  | cons d rest =>
    show some (yddLoop (some d) rest pile) = some pile
    rw [yddLoop_id]

/-- C10, witness: a three-document corpus and a one-record duplicates
store; the generator yields all three documents. -/
theorem C10_witness :
    ([(1, [0])] ≠ ([] : List (Nat × List Nat))) ∧
      yield_deduped_pile [(0, 7), (1, 8), (2, 9)] [(1, [0])] = some [(0, 7), (1, 8), (2, 9)] :=
  ⟨by decide, C10_theorem [(0, 7), (1, 8), (2, 9)] [(1, [0])] (by decide)⟩

end PileDedupe


